import Mathlib

/-!
Verification of the citation-lab structural template compiler.

Strings are modelled as `List Char` (JavaScript strings at code-unit
granularity); a Lean string literal `s` is turned into this model by `s.data`.

Sections:
1. the Addend model: `CitationTemplateLiteral` escaping and `stringify`
   serialization;
2. the tokenizer (`parseLiteralTokens`, `parseCitationTemplate`,
   `tokenizeCitationTemplate`);
3. the template builder (`CitationTemplate`: `setTemplate`, `replaceParts`,
   `wrapExpression`, `undo`, history);
4. the segment Doc model (`normalize`, `locate`, `splitAt`, `markRange` of
   visual-builder.component.ts);
5. the fold machinery of lab.component.ts (`expandAllFolds`,
   `expandWithIndexMap`, `countTokensBefore`, `isBalancedBracketedExpr`,
   `foldSelection`, `unfoldAll`);
6. the combinations tester (`subsets`, `comboRows`) with JavaScript 32-bit
   shift semantics.
-/

namespace CitationLab

/-! ### Section 1: literal escaping (citation-template-literal.ts) -/

/-- The four characters the `CitationTemplateLiteral` constructor escapes. -/
def isSpecial (c : Char) : Bool :=
  c = '[' || c = ']' || c = '{' || c = '}'

/-- One `value.replaceAll(t, '\' + t)` pass: every occurrence of the single
character `t` is replaced by a backslash followed by `t`.  For a single-character
search string, `replaceAll` is exactly this per-character flat map. -/
def replaceAllEsc (t : Char) (s : List Char) : List Char :=
  s.flatMap fun c => if c = t then ['\\', t] else [c]

/-- The four chained `replaceAll` passes of `citation-template-literal.ts`
(the `unnamed/part_000` variant, whose replacement strings are `'\\['` etc.,
i.e. one backslash before the character). -/
def escapeLit (value : List Char) : List Char :=
  replaceAllEsc '}' (replaceAllEsc '{' (replaceAllEsc ']' (replaceAllEsc '[' value)))

/-- The compiled (`templateValue`) string of `CitationTemplateLiteral`:
the escaped value wrapped in braces. -/
def literalCompiled (value : List Char) : List Char :=
  '{' :: escapeLit value ++ ['}']

/-- One `value.replaceAll(t, '\\' + t)` pass of the second literal variant
(the copy bundled with template-sync.service.ts, replacement strings `'\\\\['`
etc., i.e. two backslashes before the character). -/
def replaceAllEscV2 (t : Char) (s : List Char) : List Char :=
  s.flatMap fun c => if c = t then ['\\', '\\', t] else [c]

/-- The four chained `replaceAll` passes of the second literal variant. -/
def escapeLitV2 (value : List Char) : List Char :=
  replaceAllEscV2 '}' (replaceAllEscV2 '{' (replaceAllEscV2 ']' (replaceAllEscV2 '[' value)))

/-- Compiled string of the second `CitationTemplateLiteral` variant. -/
def literalCompiledV2 (value : List Char) : List Char :=
  '{' :: escapeLitV2 value ++ ['}']

/-- Strip the surrounding braces from a compiled literal. -/
def stripBraces (s : List Char) : List Char :=
  (s.drop 1).dropLast

/-- Unescaping for the first variant: remove the single backslash introduced
before each of `[`, `]`, `{`, `}`. -/
def unescapeLit : List Char → List Char
  | [] => []
  | [c] => [c]
  | c :: d :: cs =>
    if c = '\\' && isSpecial d then d :: unescapeLit cs
    else c :: unescapeLit (d :: cs)

/-- Unescaping for the second variant: remove the two backslashes introduced
before each of `[`, `]`, `{`, `}`. -/
def unescapeLitV2 : List Char → List Char
  | [] => []
  | [c] => [c]
  | [c, d] => [c, d]
  | c :: d :: e :: cs =>
    if c = '\\' && d = '\\' && isSpecial e then e :: unescapeLitV2 cs
    else c :: unescapeLitV2 (d :: e :: cs)

/-- Character-by-character view of the four chained passes: each special
character gets one backslash in front of it, in a single pass. -/
def escapeLitChar : List Char → List Char
  | [] => []
  | c :: cs => if isSpecial c then '\\' :: c :: escapeLitChar cs else c :: escapeLitChar cs

/-- Character-by-character view of the second variant. -/
def escapeLitCharV2 : List Char → List Char
  | [] => []
  | c :: cs => if isSpecial c then '\\' :: '\\' :: c :: escapeLitCharV2 cs else c :: escapeLitCharV2 cs

lemma replaceAllEsc_cons (t c : Char) (s : List Char) :
    replaceAllEsc t (c :: s) = (if c = t then ['\\', t] else [c]) ++ replaceAllEsc t s := by
  simp only [replaceAllEsc, List.flatMap_cons]

lemma replaceAllEscV2_cons (t c : Char) (s : List Char) :
    replaceAllEscV2 t (c :: s) = (if c = t then ['\\', '\\', t] else [c]) ++ replaceAllEscV2 t s := by
  simp only [replaceAllEscV2, List.flatMap_cons]

lemma escapeLit_eq_char (v : List Char) : escapeLit v = escapeLitChar v := by
  induction v with
  | nil => rfl
  | cons c cs ih =>
    by_cases h1 : c = '['
    · subst h1
      simpa [escapeLit, replaceAllEsc_cons, escapeLitChar, isSpecial] using ih
    · by_cases h2 : c = ']'
      · subst h2
        simpa [escapeLit, replaceAllEsc_cons, escapeLitChar, isSpecial] using ih
      · by_cases h3 : c = '{'
        · subst h3
          simpa [escapeLit, replaceAllEsc_cons, escapeLitChar, isSpecial] using ih
        · by_cases h4 : c = '}'
          · subst h4
            simpa [escapeLit, replaceAllEsc_cons, escapeLitChar, isSpecial] using ih
          · simpa [escapeLit, replaceAllEsc_cons, escapeLitChar, isSpecial, h1, h2, h3, h4] using ih

lemma escapeLitV2_eq_char (v : List Char) : escapeLitV2 v = escapeLitCharV2 v := by
  induction v with
  | nil => rfl
  | cons c cs ih =>
    by_cases h1 : c = '['
    · subst h1
      simpa [escapeLitV2, replaceAllEscV2_cons, escapeLitCharV2, isSpecial] using ih
    · by_cases h2 : c = ']'
      · subst h2
        simpa [escapeLitV2, replaceAllEscV2_cons, escapeLitCharV2, isSpecial] using ih
      · by_cases h3 : c = '{'
        · subst h3
          simpa [escapeLitV2, replaceAllEscV2_cons, escapeLitCharV2, isSpecial] using ih
        · by_cases h4 : c = '}'
          · subst h4
            simpa [escapeLitV2, replaceAllEscV2_cons, escapeLitCharV2, isSpecial] using ih
          · simpa [escapeLitV2, replaceAllEscV2_cons, escapeLitCharV2, isSpecial, h1, h2, h3, h4] using ih

lemma escapeLitChar_head_not_special (s : List Char) (d : Char) (ds : List Char)
    (h : escapeLitChar s = d :: ds) : isSpecial d = false := by
  cases s with
  | nil => simp [escapeLitChar] at h
  | cons c cs =>
    by_cases hc : isSpecial c
    · rw [escapeLitChar, if_pos hc, List.cons_eq_cons] at h
      rw [← h.1]; rfl
    · rw [escapeLitChar, if_neg (by simpa using hc), List.cons_eq_cons] at h
      rw [← h.1]
      simpa using hc

lemma escapeLitCharV2_head_not_special (s : List Char) (d : Char) (ds : List Char)
    (h : escapeLitCharV2 s = d :: ds) : isSpecial d = false := by
  cases s with
  | nil => simp [escapeLitCharV2] at h
  | cons c cs =>
    by_cases hc : isSpecial c
    · rw [escapeLitCharV2, if_pos hc, List.cons_eq_cons] at h
      rw [← h.1]; rfl
    · rw [escapeLitCharV2, if_neg (by simpa using hc), List.cons_eq_cons] at h
      rw [← h.1]
      simpa using hc

lemma escapeLitChar_eq_nil (s : List Char) (h : escapeLitChar s = []) : s = [] := by
  cases s with
  | nil => rfl
  | cons c cs =>
    by_cases hc : isSpecial c <;> simp [escapeLitChar, hc] at h

lemma escapeLitCharV2_eq_nil (s : List Char) (h : escapeLitCharV2 s = []) : s = [] := by
  cases s with
  | nil => rfl
  | cons c cs =>
    by_cases hc : isSpecial c <;> simp [escapeLitCharV2, hc] at h

lemma escapeLitCharV2_eq_single (s : List Char) (d : Char) (h : escapeLitCharV2 s = [d]) :
    s = [d] := by
  cases s with
  | nil => simp [escapeLitCharV2] at h
  | cons c cs =>
    by_cases hc : isSpecial c
    · rw [escapeLitCharV2, if_pos hc] at h
      simp at h
    · rw [escapeLitCharV2, if_neg (by simpa using hc)] at h
      rw [List.cons_eq_cons] at h
      rw [h.1, escapeLitCharV2_eq_nil cs h.2]

/-- Second character of a V2-escaped string is never one of the four specials. -/
lemma escapeLitCharV2_second_not_special (s : List Char) (e : Char) (es : List Char)
    (h : escapeLitCharV2 s = '\\' :: e :: es) : isSpecial e = false := by
  cases s with
  | nil => simp [escapeLitCharV2] at h
  | cons c cs =>
    by_cases hc : isSpecial c
    · rw [escapeLitCharV2, if_pos hc, List.cons_eq_cons] at h
      rw [List.cons_eq_cons] at h
      rw [← h.2.1]; rfl
    · rw [escapeLitCharV2, if_neg (by simpa using hc), List.cons_eq_cons] at h
      exact escapeLitCharV2_head_not_special cs e es h.2

lemma unescapeLit_escape (s : List Char) : unescapeLit (escapeLitChar s) = s := by
  induction s with
  | nil => rfl
  | cons c cs ih =>
    by_cases hc : isSpecial c
    · rw [escapeLitChar, if_pos hc, unescapeLit, if_pos (by simp [hc]), ih]
    · rw [escapeLitChar, if_neg (by simpa using hc)]
      cases h : escapeLitChar cs with
      | nil =>
        rw [escapeLitChar_eq_nil cs h, unescapeLit]
      | cons d ds =>
        rw [unescapeLit]
        by_cases hb : c = '\\'
        · have hd := escapeLitChar_head_not_special cs d ds h
          rw [if_neg (by simp [hd]), ← h, ih]
        · rw [if_neg (by simp [hb]), ← h, ih]

lemma unescapeLitV2_escape (s : List Char) : unescapeLitV2 (escapeLitCharV2 s) = s := by
  induction s with
  | nil => rfl
  | cons c cs ih =>
    by_cases hc : isSpecial c
    · rw [escapeLitCharV2, if_pos hc, unescapeLitV2, if_pos (by simp [hc]), ih]
    · rw [escapeLitCharV2, if_neg (by simpa using hc)]
      cases h : escapeLitCharV2 cs with
      | nil =>
        rw [escapeLitCharV2_eq_nil cs h, unescapeLitV2]
      | cons d ds =>
        cases hds : ds with
        | nil =>
          rw [unescapeLitV2, escapeLitCharV2_eq_single cs d (by rw [h, hds])]
        | cons e es =>
          rw [hds] at h
          rw [unescapeLitV2]
          by_cases hb : c = '\\'
          · by_cases hd : d = '\\'
            · subst hd
              have he := escapeLitCharV2_second_not_special cs e es h
              rw [if_neg (by simp [he]), ← h, ih]
            · rw [if_neg (by simp [hd]), ← h, ih]
          · rw [if_neg (by simp [hb]), ← h, ih]

/-- C1: for every string `s`, stripping the braces off the compiled form of
`CitationTemplateLiteral(s)` and removing the backslash escapes introduced for
`[`, `]`, `{`, `}` yields `s` exactly — for the single-backslash variant
(unnamed/part_000, citation-template-literal.ts) and for the double-backslash
variant bundled with template-sync.service.ts alike, whatever combination of
`{`, `}`, `[`, `]` (or any other characters) `s` contains. -/
theorem literal_escaping_inverse :
    (∀ s : List Char, unescapeLit (stripBraces (literalCompiled s)) = s) ∧
    (∀ s : List Char, unescapeLitV2 (stripBraces (literalCompiledV2 s)) = s) := by
  constructor
  · intro s
    have hstrip : stripBraces (literalCompiled s) = escapeLit s := by
      simp [stripBraces, literalCompiled]
    rw [hstrip, escapeLit_eq_char, unescapeLit_escape]
  · intro s
    have hstrip : stripBraces (literalCompiledV2 s) = escapeLitV2 s := by
      simp [stripBraces, literalCompiledV2]
    rw [hstrip, escapeLitV2_eq_char, unescapeLitV2_escape]

/-! ### Section 1b: the Addend value model and its serialization
(citation-template-addend.ts, citation-template-variable.ts,
citation-template-expression.ts) -/

/-- A template part: Literal, Variable, or Expression over child parts.
This is the value content of a `CitationTemplateAddend`; object identity,
which the builder needs for its history bookkeeping, is modelled separately
in Section 3. -/
inductive CTAddend where
  | lit (value : List Char)
  | var (value : List Char)
  | expr (addends : List CTAddend)

/-- The `.join('+')` of the compiled child strings. -/
def joinPlus : List (List Char) → List Char
  | [] => []
  | [x] => x
  | x :: xs => x ++ '+' :: joinPlus xs

mutual

/-- Serialization `stringify()`: the compiled (`templateValue`) string of an addend.
A Literal compiles to its brace-escaped text, a Variable always to the
placeholder `[%s]`, an Expression to `[` + children joined by `+` + `]`. -/
def ctStringify : CTAddend → List Char
  | .lit v => literalCompiled v
  | .var _ => "[%s]".data
  | .expr addends => '[' :: joinPlus (ctStringifyList addends) ++ [']']

/-- Map `stringify` over a child list. -/
def ctStringifyList : List CTAddend → List (List Char)
  | [] => []
  | a :: as => ctStringify a :: ctStringifyList as

end

/-- C8: `Literal("Smith")` and `Variable("Year")` wrapped as a single
Expression over both parts serialize to exactly `[{Smith}+[%s]]`. -/
theorem expression_stringify_scenario :
    ctStringify (.expr [.lit "Smith".data, .var "Year".data]) = "[{Smith}+[%s]]".data := rfl

/-! ### Section 2: the tokenizer (unnamed/part_001) -/

/-- A tokenizer token: a bracketed `[Arg]` (carrying its cleaned name, which is
also its `value`) or a literal run. -/
inductive Token where
  | arg (name : List Char)
  | lit (value : List Char)

/-- The whitespace characters `String.prototype.trim` removes (the ASCII ones;
the inputs of interest contain no exotic Unicode spaces). -/
def isJsSpace (c : Char) : Bool :=
  c = ' ' || c = '\t' || c = '\n' || c = '\r'

/-- JavaScript `s.trim()`. -/
def trimChars (s : List Char) : List Char :=
  ((s.dropWhile isJsSpace).reverse.dropWhile isJsSpace).reverse

/-- The fixed punctuation set of `parseLiteralTokens`. -/
def punctuationChars : List Char := [',', ':', ';', '#', '(', ')', '"']

/-- Newline normalization `chunk.replace(/\n/g, ' ').replace(/\r/g, ' ')`. -/
def normalizeNewlines (s : List Char) : List Char :=
  s.map fun c => if c = '\n' then ' ' else if c = '\r' then ' ' else c

/-- The segmentation loop of `parseLiteralTokens`: walk the characters with the
`currentSegment` accumulator `cur`; each punctuation character flushes `cur`
(when non-empty) and becomes its own one-character segment; the trailing `cur`
is flushed at the end. -/
def segmentChars : List Char → List Char → List (List Char)
  | [], cur => if cur = [] then [] else [cur]
  | c :: cs, cur =>
    if punctuationChars.contains c then
      (if cur = [] then [] else [cur]) ++ [c] :: segmentChars cs []
    else segmentChars cs (cur ++ [c])

/-- Literal tokenization `parseLiteralTokens`: empty chunk gives no tokens; otherwise newlines are
normalized to spaces, the chunk is segmented at punctuation, and every
non-empty segment becomes one literal token. -/
def parseLiteralTokens (chunk : List Char) : List Token :=
  if chunk = [] then []
  else ((segmentChars (normalizeNewlines chunk) []).filter (fun s => s ≠ [])).map Token.lit

/-- The bracket matcher of `parseCitationTemplate`: called just after an
opening `[`, it scans for the `]` that returns the nesting depth to zero,
returning the enclosed span and the remainder after the closing bracket
(`none` when no closing bracket exists before the end of input). -/
def spanArg : List Char → Nat → List Char → Option (List Char × List Char)
  | [], _, _ => none
  | c :: cs, depth, acc =>
    if c = '[' then spanArg cs (depth + 1) (acc ++ [c])
    else if c = ']' then
      if depth = 0 then some (acc, cs) else spanArg cs (depth - 1) (acc ++ [c])
    else spanArg cs depth (acc ++ [c])

/-- The regex replace `argContent.replace(/\([^)]*\)/g, '')`: repeatedly delete a `(`, the
following run of non-`)` characters, and the closing `)`; a `(` with no
matching `)` anywhere after it is kept verbatim.  `fuel` only bounds the scan;
the wrapper passes the string length, which the scan never exceeds since every
step consumes at least one character. -/
def stripParensFuel : Nat → List Char → List Char
  | 0, s => s
  | _ + 1, [] => []
  | fuel + 1, c :: cs =>
    if c = '(' then
      if cs.contains ')' then stripParensFuel fuel ((cs.dropWhile (· ≠ ')')).drop 1)
      else c :: stripParensFuel fuel cs
    else c :: stripParensFuel fuel cs

/-- Remove parenthesized sub-spans, as the regex replace does. -/
def stripParens (s : List Char) : List Char :=
  stripParensFuel s.length s

/-- The scanning loop of `parseCitationTemplate`: at `[`, capture the bracketed
span (falling back to literal parsing of the remainder when it is unclosed),
clean and trim it into an `arg` token; otherwise gather the literal run up to
the next `[`.  `fuel` only bounds the loop; the wrapper passes the string
length, which the loop never exceeds since every iteration consumes at least
one character. -/
def parseCTFuel : Nat → List Char → List Token
  | 0, _ => []
  | _ + 1, [] => []
  | fuel + 1, c :: cs =>
    if c = '[' then
      match spanArg cs 0 [] with
      | none => parseLiteralTokens (c :: cs)
      | some (content, rest) =>
        Token.arg (trimChars (stripParens content)) :: parseCTFuel fuel rest
    else
      parseLiteralTokens ((c :: cs).takeWhile (· ≠ '[')) ++
        parseCTFuel fuel ((c :: cs).dropWhile (· ≠ '['))

/-- Top-level `parseCitationTemplate(template)`. -/
def parseCitationTemplate (template : List Char) : List Token :=
  parseCTFuel template.length template

/-- Conversion `tokenizeCitationTemplate`: whitespace-only input gives no addends;
otherwise `arg` tokens become Variables (named `token.name || token.value`,
which is the cleaned name either way) and non-empty literal tokens become
Literals. -/
def tokenizeCitationTemplate (template : List Char) : List CTAddend :=
  if trimChars template = [] then []
  else
    (parseCitationTemplate template).foldr
      (fun t acc =>
        match t with
        | .arg name => CTAddend.var name :: acc
        | .lit v => if v ≠ [] then CTAddend.lit v :: acc else acc)
      []

/-- C3 counterexample: tokenizing `"[Author], [Year]"` does not produce the
claimed three-addend sequence `[Variable "Author", Literal ", ",
Variable "Year"]` — the comma and the following space do not form one literal
run. -/
theorem tokenize_scenario_counterexample :
    tokenizeCitationTemplate "[Author], [Year]".data ≠
      [CTAddend.var "Author".data, CTAddend.lit ", ".data, CTAddend.var "Year".data] := by
  intro h
  rw [show tokenizeCitationTemplate "[Author], [Year]".data =
      [CTAddend.var "Author".data, CTAddend.lit ",".data, CTAddend.lit " ".data,
        CTAddend.var "Year".data] from rfl] at h
  simp at h

/-- C3 (amended): tokenizing `"[Author], [Year]"` yields exactly the
four-addend sequence `[Variable "Author", Literal ",", Literal " ",
Variable "Year"]`: the comma becomes its own one-character literal token and
the following space a separate literal run. -/
theorem tokenize_scenario :
    tokenizeCitationTemplate "[Author], [Year]".data =
      [CTAddend.var "Author".data, CTAddend.lit ",".data, CTAddend.lit " ".data,
        CTAddend.var "Year".data] := rfl

/-! ### Section 3: the template builder (unnamed/part_002, unnamed/part_003) -/

/-- A builder-owned addend: the value content together with the object
identity `id` of the `new`-constructed instance.  Every constructor call in
the source allocates a fresh object; the builder state's `nextId` counter
models that allocator, and two addends are the same object (`===`) exactly
when their ids coincide. -/
inductive Addend where
  | lit (id : Nat) (value : List Char)
  | var (id : Nat) (value : List Char)
  | expr (id : Nat) (addends : List Addend)

/-- Object identity of an addend. -/
def Addend.idOf : Addend → Nat
  | .lit i _ => i
  | .var i _ => i
  | .expr i _ => i

/-- State of a `CitationTemplate` builder: the current `template` sequence,
the `history` stack of snapshots (a JavaScript array, so push and pop act on
the end of the list), and the fresh-object allocator counter. -/
structure CitationTemplate where
  template : List Addend
  history : List (List Addend)
  nextId : Nat

/-- Method `arePartsEqual`: equal length plus per-index object identity
(`addend === this.template[index]`). -/
def arePartsEqual (ct : CitationTemplate) (nextParts : List Addend) : Bool :=
  nextParts.length == ct.template.length &&
    (nextParts.zip ct.template).all fun p => p.1.idOf == p.2.idOf

/-- Method `setTemplate`: a reference-identical replacement only clears
history when `resetHistory` is set and otherwise does nothing; a real change
clears history (`resetHistory`), pushes the old sequence (`recordHistory`,
the default), or pushes nothing, then installs the new parts.  At call sites
`recordHistory` defaults to `true` and `resetHistory` to `false`. -/
def setTemplate (ct : CitationTemplate) (nextParts : List Addend)
    (recordHistory resetHistory : Bool) : CitationTemplate :=
  if arePartsEqual ct nextParts then
    if resetHistory then { ct with history := [] } else ct
  else
    { ct with
      template := nextParts
      history :=
        if resetHistory then []
        else if recordHistory then ct.history ++ [ct.template]
        else ct.history }

/-- Method `replaceParts`: an atomic replace, delegating to `setTemplate`. -/
def replaceParts (ct : CitationTemplate) (addends : List Addend)
    (recordHistory resetHistory : Bool) : CitationTemplate :=
  setTemplate ct addends recordHistory resetHistory

/-- Method `addLiteral`: append a freshly constructed Literal (default
history options). -/
def addLiteral (ct : CitationTemplate) (input : List Char) : CitationTemplate :=
  setTemplate { ct with nextId := ct.nextId + 1 }
    (ct.template ++ [.lit ct.nextId input]) true false

/-- Method `addVariable`: append a freshly constructed Variable (default
history options). -/
def addVariable (ct : CitationTemplate) (input : List Char) : CitationTemplate :=
  setTemplate { ct with nextId := ct.nextId + 1 }
    (ct.template ++ [.var ct.nextId input]) true false

/-- JavaScript `Number.isInteger`, with the number argument modelled as a
rational. -/
def isIntegerQ (q : ℚ) : Bool := q.den == 1

/-- Validation of `wrapExpression` in unnamed/part_002: integer checks first,
then `endIndex < startIndex`, then the bounds check; the first failing check
throws its message. -/
def wrapExpressionValidation (ct : CitationTemplate) (startIndex endIndex : ℚ) :
    Option String :=
  if ¬ isIntegerQ startIndex then some "Start index must be integer."
  else if ¬ isIntegerQ endIndex then some "End index must be integer."
  else if endIndex < startIndex then
    some "End index must be greater than or equal to the start index."
  else if startIndex < 0 ∨ (ct.template.length : ℚ) ≤ endIndex then
    some "Start and end index must be within the range of the template size."
  else none

/-- Validation of `wrapExpression` in the unnamed/part_003 variant: identical
except that the range check is `endIndex - startIndex < 1`, rejecting a
single-index wrap. -/
def wrapExpressionValidationAlt (ct : CitationTemplate) (startIndex endIndex : ℚ) :
    Option String :=
  if ¬ isIntegerQ startIndex then some "Start index must be integer."
  else if ¬ isIntegerQ endIndex then some "End index must be integer."
  else if endIndex - startIndex < 1 then
    some "End index must be at least one more than the start index."
  else if startIndex < 0 ∨ (ct.template.length : ℚ) ≤ endIndex then
    some "Start and end index must be within the range of the template size."
  else none

/-- Method `wrapExpression` (unnamed/part_002): validate, then splice the
closed index range `[startIndex, endIndex]` into a single freshly constructed
Expression whose children are `parts.slice(startIndex, endIndex + 1)`.
A thrown validation error is returned as the second component with the state
untouched. -/
def wrapExpression (ct : CitationTemplate) (startIndex endIndex : ℚ) :
    CitationTemplate × Option String :=
  match wrapExpressionValidation ct startIndex endIndex with
  | some msg => (ct, some msg)
  | none =>
    let i := startIndex.num.toNat
    let j := endIndex.num.toNat
    let replacement := Addend.expr ct.nextId ((ct.template.drop i).take (j + 1 - i))
    let nextParts := ct.template.take i ++ [replacement] ++ ct.template.drop (j + 1)
    (setTemplate { ct with nextId := ct.nextId + 1 } nextParts true false, none)

/-- Method `wrapExpression` of the unnamed/part_003 variant: same splice, with
the variant validation. -/
def wrapExpressionAlt (ct : CitationTemplate) (startIndex endIndex : ℚ) :
    CitationTemplate × Option String :=
  match wrapExpressionValidationAlt ct startIndex endIndex with
  | some msg => (ct, some msg)
  | none =>
    let i := startIndex.num.toNat
    let j := endIndex.num.toNat
    let replacement := Addend.expr ct.nextId ((ct.template.drop i).take (j + 1 - i))
    let nextParts := ct.template.take i ++ [replacement] ++ ct.template.drop (j + 1)
    (setTemplate { ct with nextId := ct.nextId + 1 } nextParts true false, none)

/-- Method `undo`: pop the most recent history snapshot and make it current;
`false` on empty history, with the state left unchanged.  (An empty array
popped off the stack is truthy in JavaScript, so only an absent snapshot
returns `false`.) -/
def undo (ct : CitationTemplate) : Bool × CitationTemplate :=
  match ct.history.getLast? with
  | none => (false, ct)
  | some previous =>
    (true, { ct with template := previous, history := ct.history.dropLast })

/-- All object ids of the current sequence live below the allocator counter;
true of every state the builder can reach, because ids are handed out by the
counter. -/
def FreshIds (ct : CitationTemplate) : Prop :=
  ∀ a ∈ ct.template, a.idOf < ct.nextId

lemma mem_zip_self {α : Type} {l : List α} {p : α × α} (h : p ∈ l.zip l) : p.1 = p.2 := by
  induction l with
  | nil => simp [List.zip] at h
  | cons x xs ih =>
    rw [List.zip_cons_cons] at h
    rcases List.mem_cons.mp h with h1 | h2
    · rw [h1]
    · exact ih h2

lemma arePartsEqual_self (ct : CitationTemplate) : arePartsEqual ct ct.template = true := by
  simp only [arePartsEqual, beq_self_eq_true, Bool.true_and, List.all_eq_true]
  intro p hp
  rw [mem_zip_self hp]
  exact beq_self_eq_true _

lemma setTemplate_changed (ct : CitationTemplate) (p : List Addend)
    (h : (setTemplate ct p true false).template ≠ ct.template) :
    setTemplate ct p true false =
      { template := p, history := ct.history ++ [ct.template], nextId := ct.nextId } := by
  by_cases he : arePartsEqual ct p = true
  · exact absurd (by simp [setTemplate, he]) h
  · simp [setTemplate, he]

lemma setTemplate_not_identical (ct : CitationTemplate) (p : List Addend)
    (h : arePartsEqual ct p = false) :
    setTemplate ct p true false =
      { template := p, history := ct.history ++ [ct.template], nextId := ct.nextId } := by
  simp [setTemplate, h]

/-- A builder mutation, applied with the default history options. -/
inductive Mutation where
  | addLiteral (input : List Char)
  | addVariable (input : List Char)
  | wrapExpression (startIndex endIndex : ℚ)
  | replaceParts (addends : List Addend)

/-- Apply one mutation.  A `wrapExpression` whose validation throws leaves the
state as it was (the caller catches the error). -/
def applyMutation (ct : CitationTemplate) : Mutation → CitationTemplate
  | .addLiteral s => addLiteral ct s
  | .addVariable s => addVariable ct s
  | .wrapExpression q r => (wrapExpression ct q r).1
  | .replaceParts l => replaceParts ct l true false

/-- Apply a list of mutations left to right. -/
def applyMutations (ct : CitationTemplate) : List Mutation → CitationTemplate
  | [] => ct
  | m :: ms => applyMutations (applyMutation ct m) ms

/-- Every mutation in the list actually changes the then-current sequence. -/
def AllChanging (ct : CitationTemplate) : List Mutation → Prop
  | [] => True
  | m :: ms => (applyMutation ct m).template ≠ ct.template ∧ AllChanging (applyMutation ct m) ms

/-- One `undo()` call, keeping only the state. -/
def undoStep (ct : CitationTemplate) : CitationTemplate := (undo ct).2

lemma applyMutation_changed (ct : CitationTemplate) (m : Mutation)
    (h : (applyMutation ct m).template ≠ ct.template) :
    (applyMutation ct m).history = ct.history ++ [ct.template] := by
  cases m with
  | addLiteral s =>
    rw [show applyMutation ct (.addLiteral s) =
        setTemplate { ct with nextId := ct.nextId + 1 }
          (ct.template ++ [.lit ct.nextId s]) true false from rfl] at h ⊢
    rw [setTemplate_changed _ _ h]
  | addVariable s =>
    rw [show applyMutation ct (.addVariable s) =
        setTemplate { ct with nextId := ct.nextId + 1 }
          (ct.template ++ [.var ct.nextId s]) true false from rfl] at h ⊢
    rw [setTemplate_changed _ _ h]
  | replaceParts l =>
    rw [show applyMutation ct (.replaceParts l) = setTemplate ct l true false from rfl] at h ⊢
    rw [setTemplate_changed _ _ h]
  | wrapExpression q r =>
    rw [show applyMutation ct (.wrapExpression q r) = (wrapExpression ct q r).1 from rfl] at h ⊢
    cases hv : wrapExpressionValidation ct q r with
    | some msg => simp [wrapExpression, hv] at h
    | none =>
      simp only [wrapExpression, hv] at h ⊢
      rw [setTemplate_changed _ _ h]

lemma undo_after_mutations (ms : List Mutation) : ∀ ct : CitationTemplate, AllChanging ct ms →
    (undoStep^[ms.length] (applyMutations ct ms)).template = ct.template ∧
    (undoStep^[ms.length] (applyMutations ct ms)).history = ct.history := by
  induction ms with
  | nil => intro ct _; simp [applyMutations]
  | cons m ms ih =>
    intro ct h
    rw [AllChanging] at h
    obtain ⟨h1, h2⟩ := h
    have hist1 : (applyMutation ct m).history = ct.history ++ [ct.template] :=
      applyMutation_changed ct m h1
    obtain ⟨ht, hh⟩ := ih (applyMutation ct m) h2
    rw [show applyMutations ct (m :: ms) = applyMutations (applyMutation ct m) ms from rfl]
    rw [List.length_cons, Function.iterate_succ_apply']
    rw [hist1] at hh
    constructor
    · simp [undoStep, undo, hh, List.getLast?_concat]
    · simp [undoStep, undo, hh, List.getLast?_concat, List.dropLast_concat]

/-- C4: starting from a builder with empty history, after `k` mutations (with
default history options) that each actually change the sequence, `k` calls to
`undo()` return the sequence to its initial state; one further `undo()` on the
now-empty history returns `false` and leaves the state unchanged. -/
theorem undo_correctness (ct : CitationTemplate) (ms : List Mutation)
    (hinit : ct.history = []) (hch : AllChanging ct ms) :
    (undoStep^[ms.length] (applyMutations ct ms)).template = ct.template ∧
    (undo (undoStep^[ms.length] (applyMutations ct ms))).1 = false ∧
    (undo (undoStep^[ms.length] (applyMutations ct ms))).2 =
      undoStep^[ms.length] (applyMutations ct ms) := by
  obtain ⟨ht, hh⟩ := undo_after_mutations ms ct hch
  rw [hinit] at hh
  refine ⟨ht, ?_, ?_⟩ <;> simp [undo, hh]

/-- C4 witness: the empty builder, two appends, two undos. -/
theorem undo_correctness_witness :
    (CitationTemplate.mk [] [] 0).history = [] ∧
    AllChanging (CitationTemplate.mk [] [] 0)
      [.addLiteral "a".data, .addVariable "b".data] ∧
    (undoStep^[2] (applyMutations (CitationTemplate.mk [] [] 0)
      [.addLiteral "a".data, .addVariable "b".data])).template = [] := by
  have hch : AllChanging (CitationTemplate.mk [] [] 0)
      [.addLiteral "a".data, .addVariable "b".data] := by
    refine ⟨?_, ?_, trivial⟩
    · rw [show (applyMutation (CitationTemplate.mk [] [] 0) (.addLiteral "a".data)).template =
          [Addend.lit 0 "a".data] from rfl]
      simp
    · rw [show (applyMutation (applyMutation (CitationTemplate.mk [] [] 0)
          (.addLiteral "a".data)) (.addVariable "b".data)).template =
          [Addend.lit 0 "a".data, Addend.var 1 "b".data] from rfl,
        show (applyMutation (CitationTemplate.mk [] [] 0) (.addLiteral "a".data)).template =
          [Addend.lit 0 "a".data] from rfl]
      simp
  exact ⟨rfl, hch, (undo_correctness _ _ rfl hch).1⟩

lemma isIntegerQ_iff (q : ℚ) : isIntegerQ q = true ↔ q.den = 1 := by
  simp [isIntegerQ]

lemma wrapExpressionValidation_none_iff (ct : CitationTemplate) (q r : ℚ) :
    wrapExpressionValidation ct q r = none ↔
      q.den = 1 ∧ r.den = 1 ∧ 0 ≤ q ∧ q ≤ r ∧ r ≤ (ct.template.length : ℚ) - 1 := by
  constructor
  · intro h
    rw [wrapExpressionValidation] at h
    split_ifs at h with h1 h2 h3 h4
    have hd1 : q.den = 1 := (isIntegerQ_iff q).mp h1
    have hd2 : r.den = 1 := (isIntegerQ_iff r).mp h2
    push_neg at h4
    refine ⟨hd1, hd2, h4.1, not_lt.mp h3, ?_⟩
    have hr : (r.num : ℚ) = r := Rat.coe_int_num_of_den_eq_one hd2
    have hlt : (r.num : ℚ) < (ct.template.length : ℚ) := by rw [hr]; exact h4.2
    have hlt2 : r.num < (ct.template.length : ℤ) := by exact_mod_cast hlt
    have hle : r.num ≤ (ct.template.length : ℤ) - 1 := by omega
    calc r = (r.num : ℚ) := hr.symm
      _ ≤ (((ct.template.length : ℤ) - 1 : ℤ) : ℚ) := by exact_mod_cast hle
      _ = (ct.template.length : ℚ) - 1 := by push_cast; ring
  · rintro ⟨hd1, hd2, h0, hqr, hrn⟩
    rw [wrapExpressionValidation]
    rw [if_neg (not_not_intro ((isIntegerQ_iff q).mpr hd1)),
      if_neg (not_not_intro ((isIntegerQ_iff r).mpr hd2)),
      if_neg (not_lt.mpr hqr), if_neg]
    push_neg
    exact ⟨h0, hrn.trans_lt (sub_one_lt _)⟩

lemma wrapExpressionValidationAlt_none_iff (ct : CitationTemplate) (q r : ℚ) :
    wrapExpressionValidationAlt ct q r = none ↔
      q.den = 1 ∧ r.den = 1 ∧ 0 ≤ q ∧ q + 1 ≤ r ∧ r ≤ (ct.template.length : ℚ) - 1 := by
  constructor
  · intro h
    rw [wrapExpressionValidationAlt] at h
    split_ifs at h with h1 h2 h3 h4
    have hd1 : q.den = 1 := (isIntegerQ_iff q).mp h1
    have hd2 : r.den = 1 := (isIntegerQ_iff r).mp h2
    push_neg at h4
    refine ⟨hd1, hd2, h4.1, ?_, ?_⟩
    · have := not_lt.mp h3
      linarith
    · have hr : (r.num : ℚ) = r := Rat.coe_int_num_of_den_eq_one hd2
      have hlt : (r.num : ℚ) < (ct.template.length : ℚ) := by rw [hr]; exact h4.2
      have hlt2 : r.num < (ct.template.length : ℤ) := by exact_mod_cast hlt
      have hle : r.num ≤ (ct.template.length : ℤ) - 1 := by omega
      calc r = (r.num : ℚ) := hr.symm
        _ ≤ (((ct.template.length : ℤ) - 1 : ℤ) : ℚ) := by exact_mod_cast hle
        _ = (ct.template.length : ℚ) - 1 := by push_cast; ring
  · rintro ⟨hd1, hd2, h0, hqr, hrn⟩
    rw [wrapExpressionValidationAlt]
    rw [if_neg (not_not_intro ((isIntegerQ_iff q).mpr hd1)),
      if_neg (not_not_intro ((isIntegerQ_iff r).mpr hd2)),
      if_neg (by push_neg; linarith), if_neg]
    push_neg
    exact ⟨h0, hrn.trans_lt (sub_one_lt _)⟩

lemma wrapExpression_splice (ct : CitationTemplate) (q r : ℚ) (hfresh : FreshIds ct)
    (hv : wrapExpressionValidation ct q r = none) :
    (wrapExpression ct q r).1.template =
      ct.template.take q.num.toNat ++
        Addend.expr ct.nextId
          ((ct.template.drop q.num.toNat).take (r.num.toNat + 1 - q.num.toNat)) ::
        ct.template.drop (r.num.toNat + 1) ∧
    (wrapExpression ct q r).1.history = ct.history ++ [ct.template] := by
  obtain ⟨hd1, hd2, h0, hqr, hrn⟩ := (wrapExpressionValidation_none_iff ct q r).mp hv
  set i := q.num.toNat with hi
  set j := r.num.toNat with hj
  set n := ct.template.length with hn
  -- integer bounds from the rational validation facts
  have hq : (q.num : ℚ) = q := Rat.coe_int_num_of_den_eq_one hd1
  have hr : (r.num : ℚ) = r := Rat.coe_int_num_of_den_eq_one hd2
  have hq0 : 0 ≤ q.num := by exact_mod_cast hq ▸ h0
  have hqrZ : q.num ≤ r.num := by
    have : (q.num : ℚ) ≤ (r.num : ℚ) := by rw [hq, hr]; exact hqr
    exact_mod_cast this
  have hrnZ : r.num ≤ (n : ℤ) - 1 := by
    have : (r.num : ℚ) ≤ ((( n : ℤ) - 1 : ℤ) : ℚ) := by
      rw [hr]
      push_cast
      exact hrn
    exact_mod_cast this
  have hij : i ≤ j := by omega
  have hjn : j < n := by omega
  have hin : i ≤ n := by omega
  set repl := Addend.expr ct.nextId ((ct.template.drop i).take (j + 1 - i)) with hrepl
  set nextParts := ct.template.take i ++ [repl] ++ ct.template.drop (j + 1) with hparts
  have hne : arePartsEqual ct nextParts = false := by
    by_contra hb
    have hb' : arePartsEqual ct nextParts = true := by
      cases h : arePartsEqual ct nextParts
      · exact absurd h hb
      · rfl
    rw [arePartsEqual, Bool.and_eq_true, List.all_eq_true] at hb'
    obtain ⟨hlen, hall⟩ := hb'
    have htake : (ct.template.take i).length = i := by
      rw [List.length_take]
      omega
    have h1 : nextParts.get? i = some repl := by
      rw [hparts, List.append_assoc, List.get?_append_right (by omega)]
      rw [htake, Nat.sub_self]
      rfl
    have hilt : i < n := by omega
    have h2 : ct.template.get? i = some (ct.template.get ⟨i, hilt⟩) := List.get?_eq_get hilt
    have hzip : (nextParts.zip ct.template).get? i =
        some (repl, ct.template.get ⟨i, hilt⟩) :=
      (List.get?_zip_eq_some _ _ _ _).mpr ⟨h1, h2⟩
    have hmem := List.get?_mem hzip
    have := hall _ hmem
    simp only [beq_iff_eq] at this
    have hlt := hfresh _ (List.get?_mem h2)
    have hrid : repl.idOf = ct.nextId := rfl
    rw [hrid] at this
    omega
  rw [show (wrapExpression ct q r).1 =
      setTemplate { ct with nextId := ct.nextId + 1 } nextParts true false by
    simp only [wrapExpression, hv]]
  rw [setTemplate_not_identical _ _ (by simpa using hne)]
  constructor
  · simp [hparts]
  · rfl

lemma wrapExpression_error_unchanged (ct : CitationTemplate) (q r : ℚ)
    (h : (wrapExpression ct q r).2 ≠ none) : (wrapExpression ct q r).1 = ct := by
  cases hv : wrapExpressionValidation ct q r with
  | some msg => simp [wrapExpression, hv]
  | none => exact absurd (by simp [wrapExpression, hv]) h

lemma wrapExpressionAlt_error_unchanged (ct : CitationTemplate) (q r : ℚ)
    (h : (wrapExpressionAlt ct q r).2 ≠ none) : (wrapExpressionAlt ct q r).1 = ct := by
  cases hv : wrapExpressionValidationAlt ct q r with
  | some msg => simp [wrapExpressionAlt, hv]
  | none => exact absurd (by simp [wrapExpressionAlt, hv]) h

lemma wrapExpression_snd_none_iff (ct : CitationTemplate) (q r : ℚ) :
    (wrapExpression ct q r).2 = none ↔ wrapExpressionValidation ct q r = none := by
  cases hv : wrapExpressionValidation ct q r with
  | some msg => simp [wrapExpression, hv]
  | none => simp [wrapExpression, hv]

lemma wrapExpressionAlt_snd_none_iff (ct : CitationTemplate) (q r : ℚ) :
    (wrapExpressionAlt ct q r).2 = none ↔ wrapExpressionValidationAlt ct q r = none := by
  cases hv : wrapExpressionValidationAlt ct q r with
  | some msg => simp [wrapExpressionAlt, hv]
  | none => simp [wrapExpressionAlt, hv]

/-- C2 (amended): for the `CitationTemplate` of unnamed/part_002,
`wrapExpression(i, j)` succeeds exactly when both indices are integers with
`0 ≤ i ≤ j ≤ n - 1` (a single-index wrap `i = j` is allowed); on success it
replaces the closed range `[i, j]` by one freshly constructed Expression whose
children are exactly that slice in order and pushes the prior sequence onto
history, and on every other input it throws and leaves the sequence and the
history stack untouched.  The unnamed/part_003 variant differs in exactly one
point: its validation demands `j ≥ i + 1`, so a single-index wrap throws
there. -/
theorem wrapExpression_spec (ct : CitationTemplate) (q r : ℚ) (hfresh : FreshIds ct) :
    ((wrapExpression ct q r).2 = none ↔
      q.den = 1 ∧ r.den = 1 ∧ 0 ≤ q ∧ q ≤ r ∧ r ≤ (ct.template.length : ℚ) - 1) ∧
    ((wrapExpression ct q r).2 = none →
      (wrapExpression ct q r).1.template =
        ct.template.take q.num.toNat ++
          Addend.expr ct.nextId
            ((ct.template.drop q.num.toNat).take (r.num.toNat + 1 - q.num.toNat)) ::
          ct.template.drop (r.num.toNat + 1) ∧
      (wrapExpression ct q r).1.history = ct.history ++ [ct.template]) ∧
    ((wrapExpression ct q r).2 ≠ none → (wrapExpression ct q r).1 = ct) ∧
    ((wrapExpressionAlt ct q r).2 = none ↔
      q.den = 1 ∧ r.den = 1 ∧ 0 ≤ q ∧ q + 1 ≤ r ∧ r ≤ (ct.template.length : ℚ) - 1) ∧
    ((wrapExpressionAlt ct q r).2 ≠ none → (wrapExpressionAlt ct q r).1 = ct) := by
  refine ⟨?_, ?_, wrapExpression_error_unchanged ct q r, ?_,
    wrapExpressionAlt_error_unchanged ct q r⟩
  · rw [wrapExpression_snd_none_iff]
    exact wrapExpressionValidation_none_iff ct q r
  · intro h
    exact wrapExpression_splice ct q r hfresh ((wrapExpression_snd_none_iff ct q r).mp h)
  · rw [wrapExpressionAlt_snd_none_iff]
    exact wrapExpressionValidationAlt_none_iff ct q r

/-- C2 witness: on a fresh two-part builder, `wrapExpression(0, 1)` succeeds
and wraps both parts into one Expression, while the part_003 variant rejects
the single-index wrap `(0, 0)`. -/
theorem wrapExpression_spec_witness :
    (wrapExpression ⟨[Addend.lit 0 "x".data, Addend.lit 1 "y".data], [], 2⟩ 0 1).2 = none ∧
    (wrapExpression ⟨[Addend.lit 0 "x".data, Addend.lit 1 "y".data], [], 2⟩ 0 1).1.template =
      [Addend.expr 2 [Addend.lit 0 "x".data, Addend.lit 1 "y".data]] ∧
    (wrapExpressionAlt ⟨[Addend.lit 0 "x".data, Addend.lit 1 "y".data], [], 2⟩ 0 0).2 ≠ none := by
  have hfresh : FreshIds ⟨[Addend.lit 0 "x".data, Addend.lit 1 "y".data], [], 2⟩ := by
    intro a ha
    simp only [List.mem_cons, List.not_mem_nil, or_false] at ha
    rcases ha with rfl | rfl <;> simp [Addend.idOf]
  have h := wrapExpression_spec ⟨[Addend.lit 0 "x".data, Addend.lit 1 "y".data], [], 2⟩ 0 1 hfresh
  have h0 := wrapExpression_spec ⟨[Addend.lit 0 "x".data, Addend.lit 1 "y".data], [], 2⟩ 0 0 hfresh
  have hnone : (wrapExpression ⟨[Addend.lit 0 "x".data, Addend.lit 1 "y".data], [], 2⟩ 0 1).2 =
      none := by
    apply h.1.mpr
    refine ⟨rfl, rfl, le_refl _, by norm_num, ?_⟩
    norm_num
  refine ⟨hnone, ?_, ?_⟩
  · have := (h.2.1 hnone).1
    simpa using this
  · intro hn
    obtain ⟨-, -, -, hc, -⟩ := h0.2.2.2.1.mp hn
    norm_num at hc

/-- C2 counterexample: the claim as stated fails on the unnamed/part_003
builder variant: with a one-element sequence, the integer indices `(0, 0)`
satisfy `0 ≤ i ≤ j ≤ n - 1`, yet `wrapExpression(0, 0)` throws (and leaves the
state unchanged) because that variant requires `endIndex ≥ startIndex + 1`. -/
theorem wrapExpression_single_wrap_counterexample :
    (wrapExpressionAlt ⟨[Addend.lit 0 "a".data], [], 1⟩ 0 0).2 =
      some "End index must be at least one more than the start index." ∧
    (0 : ℚ).den = 1 ∧ (0 : ℚ) ≤ 0 ∧
    (0 : ℚ) ≤ (([Addend.lit 0 "a".data] : List Addend).length : ℚ) - 1 := by
  refine ⟨?_, rfl, le_refl _, by norm_num⟩
  have hv : wrapExpressionValidationAlt ⟨[Addend.lit 0 "a".data], [], 1⟩ 0 0 =
      some "End index must be at least one more than the start index." := by
    rw [wrapExpressionValidationAlt]
    rw [if_neg (by norm_num [isIntegerQ]), if_neg (by norm_num [isIntegerQ]),
      if_pos (by norm_num)]
  simp [wrapExpressionAlt, hv]

/-- The same addend value rebuilt as a newly constructed object: the fresh
`new CitationTemplateLiteral` / `new CitationTemplateVariable` /
`new CitationTemplateExpression` carrying the identical payload under a new
object identity. -/
def Addend.withId : Addend → Nat → Addend
  | .lit _ v, n => .lit n v
  | .var _ v, n => .var n v
  | .expr _ cs, n => .expr n cs

lemma Addend.idOf_withId (a : Addend) (n : Nat) : (a.withId n).idOf = n := by
  cases a <;> rfl

/-- C7: `replaceParts` with the reference-identical current sequence never
grows the history stack (whatever the options say), while replacing any
position — whether it holds a Literal, a Variable or an Expression — with a
value-equal but newly constructed addend is not a no-op and does push
history. -/
theorem replaceParts_history_policy (ct : CitationTemplate) :
    (∀ recordHistory resetHistory : Bool,
      (replaceParts ct ct.template recordHistory resetHistory).history.length ≤
        ct.history.length) ∧
    (∀ (k : Nat) (a : Addend), FreshIds ct →
      ct.template.get? k = some a →
      (replaceParts ct (ct.template.set k (a.withId ct.nextId)) true false).history =
        ct.history ++ [ct.template]) := by
  constructor
  · intro rh rs
    rw [replaceParts, setTemplate, if_pos (by simpa using arePartsEqual_self ct)]
    cases rs <;> simp
  · intro k a hfresh hk
    have hklt : k < ct.template.length := by
      rcases List.get?_eq_some.mp hk with ⟨hlt, -⟩
      exact hlt
    have hne : arePartsEqual ct (ct.template.set k (a.withId ct.nextId)) = false := by
      by_contra hb
      have hb' : arePartsEqual ct (ct.template.set k (a.withId ct.nextId)) = true := by
        cases h : arePartsEqual ct (ct.template.set k (a.withId ct.nextId))
        · exact absurd h hb
        · rfl
      rw [arePartsEqual, Bool.and_eq_true, List.all_eq_true] at hb'
      obtain ⟨-, hall⟩ := hb'
      have h1 : (ct.template.set k (a.withId ct.nextId)).get? k = some (a.withId ct.nextId) :=
        List.get?_set_eq_of_lt _ (by simpa using hklt)
      have hzip : ((ct.template.set k (a.withId ct.nextId)).zip ct.template).get? k =
          some (a.withId ct.nextId, a) :=
        (List.get?_zip_eq_some _ _ _ _).mpr ⟨h1, hk⟩
      have hid := hall _ (List.get?_mem hzip)
      simp only [beq_iff_eq] at hid
      rw [Addend.idOf_withId] at hid
      have hlt := hfresh _ (List.get?_mem hk)
      omega
    rw [replaceParts, setTemplate_not_identical _ _ hne]

/-- C7 witness: a builder holding one Variable and one Expression; handing
back the identical sequence keeps history empty, handing back a fresh copy of
the Expression at position 1 pushes. -/
theorem replaceParts_history_policy_witness :
    (replaceParts
       ⟨[Addend.var 0 "x".data, Addend.expr 2 [Addend.lit 1 "y".data]], [], 3⟩
       [Addend.var 0 "x".data, Addend.expr 2 [Addend.lit 1 "y".data]]
       true false).history.length ≤ 0 ∧
    (replaceParts
       ⟨[Addend.var 0 "x".data, Addend.expr 2 [Addend.lit 1 "y".data]], [], 3⟩
       [Addend.var 0 "x".data, Addend.expr 3 [Addend.lit 1 "y".data]]
       true false).history =
      [] ++ [[Addend.var 0 "x".data, Addend.expr 2 [Addend.lit 1 "y".data]]] := by
  have h := replaceParts_history_policy
    ⟨[Addend.var 0 "x".data, Addend.expr 2 [Addend.lit 1 "y".data]], [], 3⟩
  refine ⟨h.1 true false, ?_⟩
  have := h.2 1 (Addend.expr 2 [Addend.lit 1 "y".data])
    (by intro a ha
        simp only [List.mem_cons, List.not_mem_nil, or_false] at ha
        rcases ha with rfl | rfl <;> simp [Addend.idOf])
    rfl
  simpa [Addend.withId] using this

/-! ### Section 4: the segment Doc model (visual-builder.types.ts /
visual-builder.component.ts) -/

/-- Segment type: literal text or an expression span. -/
inductive SegType where
  | literal
  | expr
deriving DecidableEq

/-- One segment of the Doc.  The source also carries a random `uid()` used
only by Angular's `trackBy` rendering hook; it plays no role in any operation
and is omitted. -/
structure Segment where
  type : SegType
  text : List Char

/-- An ordered Doc of segments. -/
abbrev Doc := List Segment

/-- Concatenated plain text of a Doc (`doc.map(s => s.text).join('')`). -/
def docText (d : Doc) : List Char :=
  (List.map Segment.text d).join

/-- Type sequence of a Doc. -/
def docTypes (d : Doc) : List SegType :=
  List.map Segment.type d

/-- No two adjacent entries equal, as a decidable scan. -/
def chainNe : List SegType → Bool
  | [] => true
  | [_] => true
  | a :: b :: rest => (a ≠ b : Bool) && chainNe (b :: rest)

/-- The Doc invariant: no two adjacent segments share a type. -/
def noAdjacentSame (d : Doc) : Bool :=
  chainNe (docTypes d)

/-- One step of `normalize`: skip empty-text segments, merge a segment into
the last output segment when the types agree (`last.text += s.text`), push a
copy otherwise. -/
def normStep (out : Doc) (s : Segment) : Doc :=
  if s.text = [] then out
  else
    match out.getLast? with
    | some last =>
      if last.type = s.type then
        out.dropLast ++ [{ last with text := last.text ++ s.text }]
      else out ++ [s]
    | none => out ++ [s]

/-- Method `normalize`: left-to-right rebuild dropping empty segments and
merging adjacent equal-typed runs. -/
def normalize (d : Doc) : Doc :=
  d.foldl normStep []

lemma chainNe_append_singleton (ts : List SegType) (t : SegType)
    (hc : chainNe ts = true)
    (hl : ∀ x, ts.getLast? = some x → x ≠ t) :
    chainNe (ts ++ [t]) = true := by
  induction ts with
  | nil => rfl
  | cons a rest ih =>
    cases rest with
    | nil =>
      have := hl a rfl
      simp [chainNe, this]
    | cons b r =>
      rw [List.cons_append, chainNe.eq_def]
      simp only [List.cons_append]
      rw [Bool.and_eq_true]
      rw [chainNe.eq_def] at hc
      simp only at hc
      rw [Bool.and_eq_true] at hc
      exact ⟨hc.1, ih hc.2 (fun x hx => hl x (by rw [List.getLast?_cons_cons]; exact hx))⟩

lemma normStep_invariant (out : Doc) (s : Segment)
    (h : noAdjacentSame out = true) : noAdjacentSame (normStep out s) = true := by
  by_cases hne : s.text = []
  · simpa [normStep, hne] using h
  · cases hlast : out.getLast? with
    | none =>
      have hout : out = ([] : List Segment) := List.getLast?_eq_none_iff.mp hlast
      simp only [normStep, if_neg hne, hlast, hout]
      rfl
    | some last =>
      by_cases hty : last.type = s.type
      · simp only [normStep, if_neg hne, hlast, if_pos hty]
        obtain ⟨ys, hys⟩ := List.getLast?_eq_some_iff.mp hlast
        rw [hys, List.dropLast_concat]
        rw [hys] at h
        unfold noAdjacentSame docTypes at h ⊢
        simpa using h
      · simp only [normStep, if_neg hne, hlast, if_neg hty]
        unfold noAdjacentSame docTypes at h ⊢
        rw [List.map_append]
        refine chainNe_append_singleton _ _ h ?_
        intro x hx
        rw [List.getLast?_map, hlast] at hx
        simp only [Option.map_some'] at hx
        injection hx with hx
        rw [← hx]
        exact fun hxx => hty hxx

lemma normStep_text (out : Doc) (s : Segment) :
    docText (normStep out s) = docText out ++ s.text := by
  by_cases hne : s.text = []
  · simp [normStep, hne]
  · cases hlast : out.getLast? with
    | none =>
      have hout : out = ([] : List Segment) := List.getLast?_eq_none_iff.mp hlast
      simp only [normStep, if_neg hne, hlast, hout]
      simp [docText]
    | some last =>
      by_cases hty : last.type = s.type
      · simp only [normStep, if_neg hne, hlast, if_pos hty]
        obtain ⟨ys, hys⟩ := List.getLast?_eq_some_iff.mp hlast
        rw [hys, List.dropLast_concat]
        unfold docText
        simp
      · simp only [normStep, if_neg hne, hlast, if_neg hty]
        unfold docText
        simp

lemma foldl_normStep_spec (d : List Segment) : ∀ out : Doc, noAdjacentSame out = true →
    noAdjacentSame (d.foldl normStep out) = true ∧
    docText (d.foldl normStep out) = docText out ++ docText d := by
  induction d with
  | nil =>
    intro out h
    exact ⟨h, by simp [docText]⟩
  | cons s rest ih =>
    intro out h
    rw [List.foldl_cons]
    obtain ⟨h1, h2⟩ := ih (normStep out s) (normStep_invariant out s h)
    refine ⟨h1, ?_⟩
    rw [h2, normStep_text]
    unfold docText
    simp

lemma normalize_invariant (d : Doc) : noAdjacentSame (normalize d) = true :=
  (foldl_normStep_spec d [] rfl).1

lemma normalize_text (d : Doc) : docText (normalize d) = docText d := by
  have := (foldl_normStep_spec d [] rfl).2
  rw [normalize, this]
  rfl

/-- The scanning loop of `locate`: accumulate segment lengths until the
absolute offset fits, returning segment index and within-segment offset. -/
def locateAux (abs : Int) : List Segment → Int → Nat → Option (Int × Int)
  | [], _, _ => none
  | s :: rest, acc, i =>
    if abs ≤ acc + s.text.length then some ((i : Int), abs - acc)
    else locateAux abs rest (acc + s.text.length) (i + 1)

/-- Method `locate`: find the segment containing an absolute offset; an offset
past the end falls back to the last segment's end (`d.length - 1`, which is
`-1` on an empty Doc, and `d.at(-1)?.text.length ?? 0`). -/
def locate (d : Doc) (abs : Int) : Int × Int :=
  match locateAux abs d 0 0 with
  | some r => r
  | none => ((d.length : Int) - 1, ((d.getLast?.map fun s => (s.text.length : Int)).getD 0))

/-- Method `splitAt`: split one segment into two same-typed halves at the given
within-segment offset and re-normalize; out-of-range segment index
(`!seg`) or boundary offsets leave the Doc unchanged. -/
def splitAt (d : Doc) (segIndex offsetInSeg : Int) : Doc :=
  if segIndex < 0 then d
  else
    match d.get? segIndex.toNat with
    | none => d
    | some seg =>
      if offsetInSeg ≤ 0 ∨ (seg.text.length : Int) ≤ offsetInSeg then d
      else
        let a : Segment := { type := seg.type, text := seg.text.take offsetInSeg.toNat }
        let b : Segment := { type := seg.type, text := seg.text.drop offsetInSeg.toNat }
        normalize (d.take segIndex.toNat ++ [a, b] ++ d.drop (segIndex.toNat + 1))

/-- Method `markRange`: swap inverted bounds, split at both boundaries
(re-locating after each split, so index shifts cannot corrupt the result),
retype every segment from the start segment up to and including the end
segment, and re-normalize. -/
def markRange (d : Doc) (start0 stop0 : Int) (ty : SegType) : Doc :=
  let start := if stop0 < start0 then stop0 else start0
  let stop := if stop0 < start0 then start0 else stop0
  let b1 := locate d start
  let d1 := splitAt d b1.1 b1.2
  let b2 := locate d1 stop
  let d2 := splitAt d1 b2.1 b2.2
  let i := (locate d2 start).1
  let j := (locate d2 stop).1
  let next := d2.mapIdx fun idx seg =>
    if i ≤ (idx : Int) ∧ (idx : Int) < j then { seg with type := ty }
    else if (idx : Int) = j then { seg with type := ty }
    else seg
  normalize next

lemma docText_cons (s : Segment) (d : List Segment) :
    docText (s :: d) = s.text ++ docText d := by
  simp [docText]

lemma docText_mapIdx (d : List Segment) : ∀ f : Nat → Segment → Segment,
    (∀ i s, (f i s).text = s.text) → docText (List.mapIdx f d) = docText d := by
  induction d with
  | nil => intro f _; rfl
  | cons a rest ih =>
    intro f hf
    rw [List.mapIdx_cons, docText_cons, docText_cons, hf,
      ih (fun i => f (i + 1)) (fun i s => hf (i + 1) s)]

lemma splitAt_spec (d : Doc) (segIndex offsetInSeg : Int)
    (h : noAdjacentSame d = true) :
    noAdjacentSame (splitAt d segIndex offsetInSeg) = true ∧
    docText (splitAt d segIndex offsetInSeg) = docText d := by
  rw [splitAt]
  split
  · exact ⟨h, rfl⟩
  · cases hget : d.get? segIndex.toNat with
    | none => exact ⟨h, rfl⟩
    | some seg =>
      simp only []
      split
      · exact ⟨h, rfl⟩
      · rename_i hoff
        refine ⟨normalize_invariant _, ?_⟩
        rw [normalize_text]
        obtain ⟨hlt, hgetEq⟩ := List.get?_eq_some.mp hget
        have hdecomp : d = d.take segIndex.toNat ++ seg :: d.drop (segIndex.toNat + 1) := by
          conv_lhs => rw [← List.take_append_drop segIndex.toNat d]
          rw [List.drop_eq_getElem_cons hlt]
          rw [show d[segIndex.toNat] = seg from by rw [← hgetEq]; simp [List.get?_eq_getElem?, List.getElem?_eq_getElem hlt]]
        conv_rhs => rw [hdecomp]
        unfold docText
        simp only [List.map_append, List.map_cons, List.map_nil, List.flatten_append,
          List.flatten_cons, List.flatten_nil, List.append_nil, List.append_assoc]
        rw [← List.append_assoc (List.take offsetInSeg.toNat seg.text), List.take_append_drop]

lemma markRange_spec (d : Doc) (start0 stop0 : Int) (ty : SegType)
    (h : noAdjacentSame d = true) :
    noAdjacentSame (markRange d start0 stop0 ty) = true ∧
    docText (markRange d start0 stop0 ty) = docText d := by
  rw [markRange]
  refine ⟨normalize_invariant _, ?_⟩
  rw [normalize_text]
  set start := if stop0 < start0 then stop0 else start0
  set stop := if stop0 < start0 then start0 else stop0
  set b1 := locate d start
  obtain ⟨h1, ht1⟩ := splitAt_spec d b1.1 b1.2 h
  set d1 := splitAt d b1.1 b1.2
  set b2 := locate d1 stop
  obtain ⟨h2, ht2⟩ := splitAt_spec d1 b2.1 b2.2 h1
  set d2 := splitAt d1 b2.1 b2.2
  rw [docText_mapIdx _ _ (fun i s => by
    split
    · rfl
    · split <;> rfl)]
  rw [ht2, ht1]

/-- One user-level Doc operation with arbitrary offset arguments. -/
inductive DocOp where
  | splitAt (segIndex offsetInSeg : Int)
  | markRange (start stop : Int) (ty : SegType)

/-- Apply one Doc operation. -/
def applyDocOp (d : Doc) : DocOp → Doc
  | .splitAt i off => splitAt d i off
  | .markRange a b ty => markRange d a b ty

/-- Apply a sequence of Doc operations left to right. -/
def applyDocOps (d : Doc) : List DocOp → Doc
  | [] => d
  | op :: ops => applyDocOps (applyDocOp d op) ops

/-- C5: starting from a Doc satisfying the invariant (every Doc the component
creates is normalized), any finite sequence of `splitAt` / `markRange` calls
with arbitrary offset arguments leaves a Doc with no two adjacent segments of
the same type, and the concatenation of segment texts unchanged. -/
theorem doc_invariant_preserved (d : Doc) (ops : List DocOp)
    (h : noAdjacentSame d = true) :
    noAdjacentSame (applyDocOps d ops) = true ∧
    docText (applyDocOps d ops) = docText d := by
  induction ops generalizing d with
  | nil => exact ⟨h, rfl⟩
  | cons op ops ih =>
    rw [show applyDocOps d (op :: ops) = applyDocOps (applyDocOp d op) ops from rfl]
    have hop : noAdjacentSame (applyDocOp d op) = true ∧
        docText (applyDocOp d op) = docText d := by
      cases op with
      | splitAt i off => exact splitAt_spec d i off h
      | markRange a b ty => exact markRange_spec d a b ty h
    obtain ⟨ho1, ho2⟩ := hop
    obtain ⟨hi1, hi2⟩ := ih _ ho1
    exact ⟨hi1, by rw [hi2, ho2]⟩

/-- C5 witness: a two-segment Doc, one markRange and one splitAt. -/
theorem doc_invariant_preserved_witness :
    noAdjacentSame (applyDocOps
      [Segment.mk .literal "ab".data, Segment.mk .expr "cd".data]
      [.markRange 1 3 .literal, .splitAt 0 1]) = true ∧
    docText (applyDocOps
      [Segment.mk .literal "ab".data, Segment.mk .expr "cd".data]
      [.markRange 1 3 .literal, .splitAt 0 1]) =
      docText [Segment.mk .literal "ab".data, Segment.mk .expr "cd".data] :=
  doc_invariant_preserved _ _ (by decide)

/-! ### Section 5: fold machinery of lab.component.ts -/

/-- Count of `[*]` placeholder tokens, scanning left to right and consuming
each non-overlapping occurrence whole (the behaviour of a global `/\[\*\]/g`
regex match). -/
def countTok : List Char → Nat
  | '[' :: '*' :: ']' :: rest => countTok rest + 1
  | _ :: rest => countTok rest
  | [] => 0

/-- Method `countTokensBefore`: placeholder tokens fully inside
`text.slice(0, offset)`. -/
def countTokensBefore (text : List Char) (offset : Nat) : Nat :=
  countTok (text.take offset)

/-- The replacement scan shared by `expandAllFolds` and
`expandSliceUsingPieces`: each `[*]` occurrence, left to right, is replaced by
`foldPieces[idx++] ?? ''`. -/
def eafAux (pieces : List (List Char)) : Nat → List Char → List Char
  | _, [] => []
  | idx, '[' :: '*' :: ']' :: rest => pieces.getD idx [] ++ eafAux pieces (idx + 1) rest
  | idx, c :: rest => c :: eafAux pieces idx rest

/-- Method `expandAllFolds`: replace every `[*]` with its fold piece, starting
at piece index 0. -/
def expandAllFolds (pieces : List (List Char)) (text : List Char) : List Char :=
  eafAux pieces 0 text

/-- Method `expandSliceUsingPieces`: expand a slice starting at a given piece
index, also reporting how many pieces were consumed. -/
def expandSliceUsingPieces (pieces : List (List Char)) (slice : List Char)
    (startPieceIndex : Nat) : List Char × Nat :=
  (eafAux pieces startPieceIndex slice, countTok slice)

/-- The loop of `expandWithIndexMap`: on every iteration the current expanded
length is pushed onto `foldToExp`, then either one `[*]` token (3 characters)
is consumed and its piece appended, or one character is copied; the final push
happens when the folded input is exhausted. -/
def ewimAux (pieces : List (List Char)) : Nat → Nat → List Char → List Char × List Nat
  | _, accLen, [] => ([], [accLen])
  | pieceIdx, accLen, '[' :: '*' :: ']' :: rest =>
    let piece := pieces.getD pieceIdx []
    let r := ewimAux pieces (pieceIdx + 1) (accLen + piece.length) rest
    (piece ++ r.1, accLen :: r.2)
  | pieceIdx, accLen, c :: rest =>
    let r := ewimAux pieces pieceIdx (accLen + 1) rest
    (c :: r.1, accLen :: r.2)

/-- Method `expandWithIndexMap`: the expanded string together with the
`foldToExp` offset map. -/
def expandWithIndexMap (pieces : List (List Char)) (folded : List Char) :
    List Char × List Nat :=
  ewimAux pieces 0 0 folded

lemma take_two_eq (cs : List Char) (a b : Char) (h : cs.take 2 = [a, b]) :
    ∃ r, cs = a :: b :: r := by
  rcases cs with _ | ⟨x, _ | ⟨y, r⟩⟩
  · simp at h
  · simp at h
  · simp only [List.take, List.cons_eq_cons] at h
    obtain ⟨rfl, rfl, -⟩ := h
    exact ⟨r, rfl⟩

lemma mismatch_of_forall {c : Char} {cs : List Char}
    (hm : ∀ r1 : List Char, c = '[' → cs = '*' :: ']' :: r1 → False) :
    ¬(c = '[' ∧ cs.take 2 = ['*', ']']) := by
  rintro ⟨h1, h2⟩
  obtain ⟨r, hr⟩ := take_two_eq cs '*' ']' h2
  exact hm r h1 hr

lemma eafAux_token (p : List (List Char)) (idx : Nat) (rest : List Char) :
    eafAux p idx ('[' :: '*' :: ']' :: rest) = p.getD idx [] ++ eafAux p (idx + 1) rest := rfl

lemma eafAux_cons_ne (p : List (List Char)) (idx : Nat) (c : Char) (cs : List Char)
    (h : ¬(c = '[' ∧ cs.take 2 = ['*', ']'])) :
    eafAux p idx (c :: cs) = c :: eafAux p idx cs := by
  rw [eafAux.eq_def]
  split <;> rename_i heq
  · exact absurd heq (by simp)
  · exfalso
    rw [List.cons_eq_cons] at heq
    exact h ⟨heq.1, by rw [heq.2]; rfl⟩
  · rw [List.cons_eq_cons] at heq
    rw [heq.1, heq.2]

lemma countTok_token (rest : List Char) :
    countTok ('[' :: '*' :: ']' :: rest) = countTok rest + 1 := rfl

lemma countTok_cons_ne (c : Char) (cs : List Char)
    (h : ¬(c = '[' ∧ cs.take 2 = ['*', ']'])) :
    countTok (c :: cs) = countTok cs := by
  rw [countTok.eq_def]
  split <;> rename_i heq
  · exfalso
    rw [List.cons_eq_cons] at heq
    exact h ⟨heq.1, by rw [heq.2]; rfl⟩
  · rw [List.cons_eq_cons] at heq
    rw [heq.2]
  · exact absurd heq (by simp)

lemma ewimAux_token (p : List (List Char)) (idx accLen : Nat) (rest : List Char) :
    ewimAux p idx accLen ('[' :: '*' :: ']' :: rest) =
      ((p.getD idx []) ++ (ewimAux p (idx + 1) (accLen + (p.getD idx []).length) rest).1,
        accLen :: (ewimAux p (idx + 1) (accLen + (p.getD idx []).length) rest).2) := rfl

lemma ewimAux_cons_ne (p : List (List Char)) (idx accLen : Nat) (c : Char) (cs : List Char)
    (h : ¬(c = '[' ∧ cs.take 2 = ['*', ']'])) :
    ewimAux p idx accLen (c :: cs) =
      (c :: (ewimAux p idx (accLen + 1) cs).1, accLen :: (ewimAux p idx (accLen + 1) cs).2) := by
  rw [ewimAux.eq_def]
  split <;> rename_i heq
  · exact absurd heq (by simp)
  · exfalso
    rw [List.cons_eq_cons] at heq
    exact h ⟨heq.1, by rw [heq.2]; rfl⟩
  · rw [List.cons_eq_cons] at heq
    rw [heq.1, heq.2]

lemma ewimAux_fst (pieces : List (List Char)) (idx accLen : Nat) (l : List Char) :
    (ewimAux pieces idx accLen l).1 = eafAux pieces idx l := by
  induction idx, accLen, l using ewimAux.induct pieces with
  | case1 i a => rfl
  | case2 idx accLen rest piece ih =>
    rw [ewimAux_token, eafAux_token]
    simp only []
    congr 1
  | case3 idx accLen c rest hm ih =>
    have hne := mismatch_of_forall hm
    rw [ewimAux_cons_ne _ _ _ _ _ hne, eafAux_cons_ne _ _ _ _ hne]
    simp only []
    congr 1

lemma ewimAux_snd_spec (pieces : List (List Char)) (idx accLen : Nat) (l : List Char) :
    List.Chain' (· ≤ ·) (ewimAux pieces idx accLen l).2 ∧
    (ewimAux pieces idx accLen l).2.head? = some accLen := by
  induction idx, accLen, l using ewimAux.induct pieces with
  | case1 i a => exact ⟨List.chain'_singleton _, rfl⟩
  | case2 idx accLen rest piece ih =>
    rw [ewimAux_token]
    obtain ⟨hc, hh⟩ := ih
    refine ⟨List.chain'_cons'.mpr ⟨?_, hc⟩, rfl⟩
    intro b hb
    rw [hh] at hb
    injection hb with hb
    omega
  | case3 idx accLen c rest hm ih =>
    have hne := mismatch_of_forall hm
    rw [ewimAux_cons_ne _ _ _ _ _ hne]
    obtain ⟨hc, hh⟩ := ih
    refine ⟨List.chain'_cons'.mpr ⟨?_, hc⟩, rfl⟩
    intro b hb
    rw [hh] at hb
    injection hb with hb
    omega

/-- C10: the two expansion implementations agree — `expandWithIndexMap`
substitutes the i-th left-to-right `[*]` token with the i-th fold piece (empty
when no piece exists) exactly as `expandAllFolds` does — and the returned
`foldToExp` array is monotonically non-decreasing. -/
theorem expand_implementations_agree (pieces : List (List Char)) (folded : List Char) :
    (expandWithIndexMap pieces folded).1 = expandAllFolds pieces folded ∧
    List.Chain' (· ≤ ·) (expandWithIndexMap pieces folded).2 :=
  ⟨ewimAux_fst pieces 0 0 folded, (ewimAux_snd_spec pieces 0 0 folded).1⟩

lemma eafAux_congr (p1 p2 : List (List Char)) (l : List Char) : ∀ (i1 i2 : Nat),
    (∀ k, k < countTok l → p1.getD (i1 + k) [] = p2.getD (i2 + k) []) →
    eafAux p1 i1 l = eafAux p2 i2 l := by
  induction l using countTok.induct with
  | case1 rest ih =>
    intro i1 i2 h
    rw [eafAux_token, eafAux_token]
    have h0 := h 0 (by rw [countTok_token]; omega)
    simp only [Nat.add_zero] at h0
    rw [h0]
    congr 1
    refine ih (i1 + 1) (i2 + 1) fun k hk => ?_
    have := h (k + 1) (by rw [countTok_token]; omega)
    rw [show i1 + (k + 1) = i1 + 1 + k by omega, show i2 + (k + 1) = i2 + 1 + k by omega] at this
    exact this
  | case2 c rest hm ih =>
    intro i1 i2 h
    have hne := mismatch_of_forall hm
    rw [eafAux_cons_ne _ _ _ _ hne, eafAux_cons_ne _ _ _ _ hne]
    congr 1
    refine ih i1 i2 fun k hk => ?_
    exact h k (by rw [countTok_cons_ne _ _ hne] at h ⊢; exact hk)
  | case3 =>
    intro i1 i2 h
    rfl

/-- The boundary between `x` and `y` does not cut a `[*]` token: either `y`
begins with `[` (so no token tail can begin it) or `x` ends with `]` (so no
token head can end it) or `x` is empty. -/
def SplitBoundary (x y : List Char) : Prop :=
  y.head? = some '[' ∨ x.getLast? = some ']' ∨ x = []

lemma splitBoundary_tail {c : Char} {xr y : List Char} (hb : SplitBoundary (c :: xr) y) :
    SplitBoundary xr y := by
  rcases xr with _ | ⟨d, r⟩
  · exact Or.inr (Or.inr rfl)
  · rcases hb with h | h | h
    · exact Or.inl h
    · rw [List.getLast?_cons_cons] at h
      exact Or.inr (Or.inl h)
    · cases h

lemma eafAux_append (p : List (List Char)) (x : List Char) : ∀ (y : List Char) (idx : Nat),
    SplitBoundary x y →
    eafAux p idx (x ++ y) = eafAux p idx x ++ eafAux p (idx + countTok x) y := by
  induction x using countTok.induct with
  | case1 rest ih =>
    intro y idx hb
    have hb1 : SplitBoundary rest y :=
      splitBoundary_tail (splitBoundary_tail (splitBoundary_tail hb))
    rw [List.cons_append, List.cons_append, List.cons_append]
    rw [eafAux_token, eafAux_token, countTok_token]
    rw [ih y (idx + 1) hb1]
    rw [List.append_assoc, show idx + (countTok rest + 1) = idx + 1 + countTok rest by omega]
  | case2 c rest hm ih =>
    intro y idx hb
    have hne : ¬(c = '[' ∧ rest.take 2 = ['*', ']']) := mismatch_of_forall hm
    have hneC : ¬(c = '[' ∧ (rest ++ y).take 2 = ['*', ']']) := by
      rintro ⟨hc, ht⟩
      obtain ⟨r, hr⟩ := take_two_eq _ _ _ ht
      rcases rest with _ | ⟨d, _ | ⟨e, rs⟩⟩
      · rw [List.nil_append] at hr
        rcases hb with h | h | h
        · rw [hr] at h
          simp at h
        · simp at h
          rw [h] at hc
          exact absurd hc (by decide)
        · cases h
      · rw [List.cons_append, List.cons_eq_cons] at hr
        obtain ⟨rfl, hr2⟩ := hr
        rw [List.nil_append] at hr2
        rcases hb with h | h | h
        · rw [hr2] at h
          simp at h
        · simp at h
        · cases h
      · rw [List.cons_append, List.cons_eq_cons] at hr
        obtain ⟨rfl, hr2⟩ := hr
        rw [List.cons_append, List.cons_eq_cons] at hr2
        obtain ⟨rfl, -⟩ := hr2
        exact hne ⟨hc, rfl⟩
    rw [List.cons_append, eafAux_cons_ne _ _ _ _ hneC,
      eafAux_cons_ne _ _ _ _ hne, countTok_cons_ne _ _ hne, List.cons_append]
    congr 1
    exact ih y idx (splitBoundary_tail hb)
  | case3 =>
    intro y idx hb
    simp [eafAux, countTok]

/-- The counter loop of `isBalancedBracketedExpr`: a backslash skips the next
character; `[`/`]` and `{`/`}` adjust their depth counters; any counter going
negative fails immediately; at the end both counters must be zero.  (A
trailing backslash ends the scan with the counters unchanged, exactly as the
`i++` skip does.) -/
def balScan : List Char → Int → Int → Bool
  | [], b, c => b == 0 && c == 0
  | '\\' :: _ :: rest, b, c => balScan rest b c
  | ch :: rest, b, c =>
    let b1 := if ch = '[' then b + 1 else if ch = ']' then b - 1 else b
    let c1 := if ch = '{' then c + 1 else if ch = '}' then c - 1 else c
    if b1 < 0 || c1 < 0 then false else balScan rest b1 c1

/-- Method `isBalancedBracketedExpr`: non-empty, first character `[`, last
character `]`, and the escape-aware bracket/brace scan balances. -/
def isBalancedBracketedExpr (s : List Char) : Bool :=
  match s with
  | [] => false
  | c :: _ => c = '[' && s.getLast? == some ']' && balScan s 0 0

/-- Folding state of the lab component: the folded buffer and the fold-piece
table. -/
structure LabState where
  visualText : List Char
  foldPieces : List (List Char)

/-- Method `foldSelection`: if the selected span passes the balance check,
splice the pieces it consumed into one combined piece and replace the span
with a single `[*]` token; otherwise return with no state change. -/
def foldSelection (st : LabState) (startOff endOff : Nat) : LabState :=
  let selected := (st.visualText.drop startOff).take (endOff - startOff)
  if isBalancedBracketedExpr selected then
    let startPieceIndex := countTokensBefore st.visualText startOff
    let expanded := (expandSliceUsingPieces st.foldPieces selected startPieceIndex).1
    let consumed := (expandSliceUsingPieces st.foldPieces selected startPieceIndex).2
    { visualText := st.visualText.take startOff ++
        '[' :: '*' :: ']' :: st.visualText.drop endOff,
      foldPieces := st.foldPieces.take startPieceIndex ++ [expanded] ++
        st.foldPieces.drop (startPieceIndex + consumed) }
  else st

/-- Method `unfoldAll`: replace every placeholder with its table entry and
clear the fold table. -/
def unfoldAll (st : LabState) : LabState :=
  { visualText := expandAllFolds st.foldPieces st.visualText, foldPieces := [] }

lemma balanced_head_last (s : List Char) (h : isBalancedBracketedExpr s = true) :
    s.head? = some '[' ∧ s.getLast? = some ']' := by
  cases s with
  | nil => simp [isBalancedBracketedExpr] at h
  | cons c cs =>
    rw [isBalancedBracketedExpr] at h
    simp only [Bool.and_eq_true, decide_eq_true_eq, beq_iff_eq] at h
    exact ⟨by rw [List.head?_cons, h.1.1], h.1.2⟩

lemma getD_splice_prefix (p : List (List Char)) (a : Nat) (e : List Char) (b : Nat)
    (ha : a ≤ p.length) (k : Nat) (hk : k < a) :
    (p.take a ++ [e] ++ p.drop b).getD k [] = p.getD k [] := by
  unfold List.getD
  rw [List.append_assoc, List.get?_append (by rw [List.length_take]; omega),
    List.get?_take hk]

lemma getD_splice_middle (p : List (List Char)) (a : Nat) (e : List Char) (b : Nat)
    (ha : a ≤ p.length) :
    (p.take a ++ [e] ++ p.drop b).getD a [] = e := by
  unfold List.getD
  have hlen : (p.take a).length = a := by rw [List.length_take]; omega
  rw [List.append_assoc, List.get?_append_right (by omega), hlen, Nat.sub_self]
  rfl

lemma getD_splice_suffix (p : List (List Char)) (a : Nat) (e : List Char) (b : Nat)
    (ha : a ≤ p.length) (k : Nat) :
    (p.take a ++ [e] ++ p.drop b).getD (a + 1 + k) [] = p.getD (b + k) [] := by
  unfold List.getD
  have hlen : (p.take a ++ [e]).length = a + 1 := by
    rw [List.length_append, List.length_take]
    simp
    omega
  rw [List.get?_append_right (by omega), hlen,
    show a + 1 + k - (a + 1) = k by omega, List.get?_drop]

/-- C6 (amended): folding a balanced selection and then unfolding everything
reproduces the full expansion of the original buffer, provided the fold table
has an entry for every `[*]` placeholder that precedes the selection (which is
the case whenever the table tracks the buffer's placeholders; a hand-typed
placeholder with no table entry breaks the correspondence, see the
counterexample). -/
theorem fold_unfold_inverse (st : LabState) (startOff endOff : Nat)
    (hle : startOff ≤ endOff)
    (hbal : isBalancedBracketedExpr
      ((st.visualText.drop startOff).take (endOff - startOff)) = true)
    (hcover : countTokensBefore st.visualText startOff ≤ st.foldPieces.length) :
    (unfoldAll (foldSelection st startOff endOff)).visualText =
      expandAllFolds st.foldPieces st.visualText := by
  set pre := st.visualText.take startOff with hpre
  set sel := (st.visualText.drop startOff).take (endOff - startOff) with hsel
  set suf := st.visualText.drop endOff with hsuf
  set p := st.foldPieces with hp
  set a := countTok pre with ha
  set b := countTok sel with hb
  obtain ⟨hhead, hlast⟩ := balanced_head_last sel hbal
  have hselne : sel ≠ [] := by
    intro hnil
    rw [hnil] at hhead
    simp at hhead
  have hcov : a ≤ p.length := hcover
  have hdecomp : st.visualText = pre ++ sel ++ suf := by
    rw [hpre, hsel, hsuf, List.append_assoc]
    have h1 : st.visualText.drop endOff =
        (st.visualText.drop startOff).drop (endOff - startOff) := by
      rw [List.drop_drop, show startOff + (endOff - startOff) = endOff by omega]
    rw [h1, List.take_append_drop, List.take_append_drop]
  have hstate : foldSelection st startOff endOff =
      { visualText := pre ++ '[' :: '*' :: ']' :: suf,
        foldPieces := p.take a ++ [eafAux p a sel] ++ p.drop (a + b) } := by
    rw [foldSelection, if_pos hbal]
    rfl
  rw [hstate]
  rw [unfoldAll]
  simp only [expandAllFolds]
  set p2 := p.take a ++ [eafAux p a sel] ++ p.drop (a + b) with hp2
  -- left side: prefix, the new token, suffix
  have hLsplit : eafAux p2 0 (pre ++ '[' :: '*' :: ']' :: suf) =
      eafAux p2 0 pre ++ eafAux p2 a ('[' :: '*' :: ']' :: suf) := by
    rw [eafAux_append p2 pre _ 0 (by exact Or.inl rfl), Nat.zero_add]
  -- right side: prefix, selection, suffix
  have hbnd : SplitBoundary pre (sel ++ suf) := by
    left
    rw [List.head?_append, hhead]
    rfl
  have hRsplit : eafAux p 0 (pre ++ sel ++ suf) =
      eafAux p 0 pre ++ (eafAux p a sel ++ eafAux p (a + b) suf) := by
    rw [List.append_assoc, eafAux_append p pre (sel ++ suf) 0 hbnd, Nat.zero_add,
      eafAux_append p sel suf a (by exact Or.inr (Or.inl hlast))]
  conv_rhs => rw [hdecomp, hRsplit]
  rw [hLsplit]
  congr 1
  · refine eafAux_congr p2 p pre 0 0 fun k hk => ?_
    rw [Nat.zero_add]
    exact getD_splice_prefix p a _ (a + b) hcov k hk
  · rw [eafAux_token]
    rw [getD_splice_middle p a _ (a + b) hcov]
    congr 1
    exact eafAux_congr p2 p suf (a + 1) (a + b) fun k hk =>
      getD_splice_suffix p a _ (a + b) hcov k

/-- C6 witness: buffer `x[*]y[*]z` with pieces `A`, `B`; folding the balanced
span `[*]y[*]` and unfolding yields the original full expansion `xAyBz`. -/
theorem fold_unfold_inverse_witness :
    (unfoldAll (foldSelection ⟨"x[*]y[*]z".data, ["A".data, "B".data]⟩ 1 8)).visualText =
      "xAyBz".data := by
  have h := fold_unfold_inverse ⟨"x[*]y[*]z".data, ["A".data, "B".data]⟩ 1 8
    (by omega) (by decide) (by decide)
  rw [h]
  decide

/-- C6 counterexample: with buffer `[*]q[*]w[y]` but only one fold piece `A`,
the second `[*]` has no table entry; folding the balanced selection `[y]`
(offsets 8 to 11) and unfolding yields `Aq[y]w`, not the original expansion
`Aqw[y]` — visible text moves. -/
theorem fold_unfold_counterexample :
    isBalancedBracketedExpr (("[*]q[*]w[y]".data.drop 8).take 3) = true ∧
    (unfoldAll (foldSelection ⟨"[*]q[*]w[y]".data, ["A".data]⟩ 8 11)).visualText =
      "Aq[y]w".data ∧
    expandAllFolds ["A".data] "[*]q[*]w[y]".data = "Aqw[y]".data ∧
    "Aq[y]w".data ≠ "Aqw[y]".data := by
  refine ⟨by decide, by decide, by decide, by decide⟩

/-! ### Section 6: the combinations tester (lab.component.ts) -/

end CitationLab
